import Mathlib

/-!
Verification development for the MTG EDH deckbuilder (src/deckbuilder.py).

Python strings are modelled as `List Char` (type `Str`).  The
`unicodedata.normalize("NFKD", s).encode("ascii","ignore")` step is modelled
as dropping every non-ASCII character; on ASCII input (all concrete inputs
used below) this agrees exactly with the Python code.  Floating point
arithmetic of the curve-bias computation is modelled exactly over `ℚ`
(`0.45` becomes `9/20`).  External effects (HTTP requests, HTML parsing,
Python `float()`) are modelled at the boundary described next to each
definition.
-/

/-- Python strings, modelled as lists of characters. -/
abbrev Str := List Char

/-- Converts a Lean string literal to a `Str`. -/
def str (s : String) : Str := s.data

/-- Characters matched by the ASCII fragment of the regex class `\s`
(space, tab, newline, carriage return, vertical tab, form feed). -/
def isReSpace (c : Char) : Bool :=
  c.toNat = 32 ∨ c.toNat = 9 ∨ c.toNat = 10 ∨ c.toNat = 13 ∨ c.toNat = 11 ∨ c.toNat = 12

/-- ASCII characters for which Python `str.isspace()` holds; `str.strip()`
removes exactly these from the ends (the regex class `\s` is smaller: it
excludes the separator characters 28-31). -/
def isPySpace (c : Char) : Bool :=
  isReSpace c ∨ c.toNat = 28 ∨ c.toNat = 29 ∨ c.toNat = 30 ∨ c.toNat = 31

/-- ASCII decimal digits, the regex class `\d` on ASCII text. -/
def isDigitCh (c : Char) : Bool := 48 ≤ c.toNat ∧ c.toNat ≤ 57

/-- Lower case ASCII letters. -/
def isLowerCh (c : Char) : Bool := 97 ≤ c.toNat ∧ c.toNat ≤ 122

/-- Model of `unicodedata.normalize("NFKD", s).encode("ascii","ignore")`:
non-ASCII characters are dropped (exact for ASCII input, where NFKD is the
identity; accented letters decompose and keep their base letter in Python,
which this approximation drops instead). -/
def asciiFilter (s : Str) : Str := s.filter (fun c => c.toNat < 128)

/-- Python `str.lower()` on ASCII text. -/
def lowerStr (s : Str) : Str := s.map Char.toLower

/-- Removes a trailing run of `p`-characters (helper for `str.strip`). -/
def rstripBy (p : Char → Bool) : Str → Str
  | [] => []
  | c :: rest =>
    let r := rstripBy p rest
    if r = [] ∧ p c then [] else c :: r

/-- Python `str.strip()` (no argument): removes leading and trailing
whitespace in the `isPySpace` sense. -/
def pyStrip (s : Str) : Str := rstripBy isPySpace (s.dropWhile isPySpace)

/-- Python `str.strip(chars)` restricted to the character set `p`. -/
def stripBy (p : Char → Bool) (s : Str) : Str := rstripBy p (s.dropWhile p)

/-- Replaces every maximal run of `p`-characters by the single character
`rep`; with the flag set, a run at the current position continues a
previous run and produces nothing.  `collapseRuns p rep false` is
`re.sub(p+, rep, s)`. -/
def collapseRuns (p : Char → Bool) (rep : Char) : Bool → Str → Str
  | _, [] => []
  | inRun, c :: rest =>
    if p c then
      if inRun then collapseRuns p rep true rest
      else rep :: collapseRuns p rep true rest
    else c :: collapseRuns p rep false rest

/-- Whether the regex `^\d+\s+` of `_norm_name` matches: a nonempty leading
digit run followed by at least one whitespace character. -/
def hasCountPfx (s : Str) : Bool :=
  let d := s.takeWhile isDigitCh
  (!d.isEmpty) &&
    (match s.drop d.length with
     | c :: _ => isReSpace c
     | [] => false)

/-- `re.sub(r'^\d+\s+', '', s)`: when the pattern matches, the leading digit
run and the whole following whitespace run are removed (both `+` are
greedy). -/
def dropCountPfx (s : Str) : Str :=
  if hasCountPfx s then (s.drop (s.takeWhile isDigitCh).length).dropWhile isReSpace
  else s

/-- Helper for the regex `\s*\(.*?\)\s*$` of `_norm_name`: given the text
after an opening parenthesis, decides whether some later `)` closes it with
only whitespace to the right of it and no newline in between (`.` does not
match newlines). -/
def closesParen : Str → Bool
  | [] => false
  | c :: rest =>
    if c = ')' ∧ rest.all isReSpace then true
    else if c.toNat = 10 then false
    else closesParen rest

/-- Worker for `parenSub`: `kept` holds the output so far (reversed), `ws`
the pending whitespace run (reversed) directly before the current position.
When an opening parenthesis with a valid closing is found, the match spans
from the start of the pending whitespace run to the end of the string, so
only `kept` survives. -/
def parenSubAux (kept ws : Str) : Str → Str
  | [] => kept.reverse ++ ws.reverse
  | c :: rest =>
    if c = '(' ∧ closesParen rest then kept.reverse
    else if isReSpace c then parenSubAux kept (c :: ws) rest
    else parenSubAux (c :: (ws ++ kept)) [] rest

/-- `re.sub(r'\s*\(.*?\)\s*$', '', s)`: removes a trailing parenthesized
block together with the whitespace around it (leftmost `(` that has a valid
closing wins; everything from there to the end of the string is removed). -/
def parenSub (s : Str) : Str := parenSubAux [] [] s

/-- The characters kept by `re.sub(r'[^a-z0-9\s]', '', s)`. -/
def keepChar (c : Char) : Bool := isLowerCh c ∨ isDigitCh c ∨ isReSpace c

/-- `_norm_name` from src/deckbuilder.py: ASCII fold, lower case, strip,
remove a leading count like `"2 "`, remove a trailing `"(...)"` block,
remove remaining punctuation, collapse whitespace runs, strip. -/
def normName (s : Str) : Str :=
  if s = [] then []
  else
    pyStrip (collapseRuns isReSpace ' ' false
      ((parenSub (dropCountPfx (pyStrip (lowerStr (asciiFilter s))))).filter keepChar))

example : normName (str "Sol Ring") = str "sol ring" := by decide
example : normName (str "2 sol ring (M21)") = str "sol ring" := by decide
example : normName (str "SOL RING") = str "sol ring" := by decide
example : normName (str "2 2 sol ring") = str "2 sol ring" := by decide
example : normName (str "2 sol ring") = str "sol ring" := by decide
example : normName (str "a (b) c") = str "a b c" := by decide
example : normName (str "a (b) (c)") = str "a" := by decide

/-- Python `startswith` over character lists (pattern first). -/
def startsWithStr : Str → Str → Bool
  | [], _ => true
  | _ :: _, [] => false
  | p :: ps, c :: cs => (p == c) && startsWithStr ps cs

/-- Python substring test `pat in hay`. -/
def containsStr : Str → Str → Bool
  | [], pat => pat.isEmpty
  | c :: cs, pat => startsWithStr pat (c :: cs) || containsStr cs pat

/-- A resolved Scryfall card record: the fields of the JSON dictionary the
program reads.  Fields the code accesses with a falsy-coalescing default
(`or`) are `Option`s here; the falsy check is re-applied at each use site
exactly as the code does. -/
structure Card where
  name : Str
  type_line : Str
  oracle_text : Str
  cmc : Option ℚ
  color_identity : List Char
  edhrec_rank : Option Nat
  price_eur : Option Str
  price_usd : Option Str
deriving DecidableEq

/-- `is_commander_legal`: the color identity of `c` is a subset of the
commander identity. -/
def is_commander_legal (c : Card) (commanderIdentity : List Char) : Bool :=
  c.color_identity.all (fun x => commanderIdentity.contains x)

/-- `detect_function`: the priority-ordered classification decision list. -/
def detect_function (card : Option Card) : Str :=
  match card with
  | none => str "Other"
  | some c =>
    let t := lowerStr c.type_line
    let o := lowerStr c.oracle_text
    if containsStr t (str "land") then str "Land"
    else if containsStr t (str "creature") then str "Creature"
    else if containsStr o (str "add \x7bm") || containsStr o (str "search your library for a land")
        || containsStr o (str "ramp") then str "Ramp"
    else if containsStr o (str "draw a card") || containsStr o (str "scry")
        || containsStr o (str "investigate") then str "Card Draw"
    else if containsStr o (str "destroy target") || containsStr o (str "exile target")
        || containsStr o (str "counter target") || containsStr o (str "fight target") then
      str "Removal/Interaction"
    else if containsStr o (str "you win the game") || containsStr o (str "extra turn")
        || containsStr o (str "infinite") then str "Wincon/Finisher"
    else if containsStr t (str "artifact") then str "Artifact"
    else if containsStr t (str "enchantment") then str "Enchantment"
    else if containsStr t (str "instant") then str "Instant"
    else if containsStr t (str "sorcery") then str "Sorcery"
    else str "Other"

/-- Numeric value of a run of decimal digit characters. -/
def natOfDigits (s : Str) : Nat := s.foldl (fun acc c => acc * 10 + (c.toNat - 48)) 0

/-- Model of the decimal fragment of Python `float(s)` used on Scryfall
price strings: `digits+`, `digits+ . digits*`, or `. digits+`; any other
body fails.  (Exponent, infinity and nan forms never occur in price
strings and are not modelled.) -/
def pyFloatCore (s : Str) : Option ℚ :=
  let ip := s.takeWhile isDigitCh
  match s.drop ip.length with
  | [] => if ip.isEmpty then none else some (natOfDigits ip : ℚ)
  | '.' :: frac =>
    if frac.all isDigitCh && !(ip.isEmpty && frac.isEmpty) then
      some ((natOfDigits ip : ℚ) + (natOfDigits frac : ℚ) / ((10 : ℚ) ^ frac.length))
    else none
  | _ => none

/-- Python `float(s)` on price strings: strips surrounding whitespace and
allows one leading sign. -/
def pyFloat (s : Str) : Option ℚ :=
  match pyStrip s with
  | '-' :: r => (pyFloatCore r).map Neg.neg
  | '+' :: r => pyFloatCore r
  | r => pyFloatCore r

/-- Python truthiness of an optional string (`if eur:`): present and
nonempty. -/
def truthyOptStr : Option Str → Bool
  | none => false
  | some s => !s.isEmpty

/-- `get_price_eur`: preferred EUR price, else USD, else 0.  An exception
raised by `float` (malformed string) is caught and yields 0 immediately:
the `usd` line is never reached in that case. -/
def get_price_eur (card : Option Card) : ℚ :=
  match card with
  | none => 0
  | some c =>
    if truthyOptStr c.price_eur then (pyFloat (c.price_eur.getD [])).getD 0
    else if truthyOptStr c.price_usd then (pyFloat (c.price_usd.getD [])).getD 0
    else 0

/-- `_ascii_slug`: ASCII fold, lower case, drop everything but word
characters, whitespace and hyphens, turn whitespace runs into hyphens,
strip outer hyphens, collapse hyphen runs. -/
def keepSlugChar (c : Char) : Bool :=
  isLowerCh c || isDigitCh c || (c == '_') || isReSpace c || (c == '-')

def asciiSlug (s : Str) : Str :=
  let s1 := (lowerStr (asciiFilter s)).filter keepSlugChar
  let s2 := stripBy (fun c => c == '-') (collapseRuns isReSpace '-' false s1)
  collapseRuns (fun c => c == '-') '-' false s2

/-- Outcome of one HTTP request to the card lookup service: the request
either raises (network failure / timeout) or yields a status code and, for
the body, the parsed JSON card record (`none` when parsing raises). -/
inductive HttpOutcome where
  | netFail
  | ok (status : Nat) (json : Option Card)
deriving DecidableEq

/-- `get_card_info`: empty names are not queried; only a status-200
response with a parsed body yields a record; every failure (exception,
non-200 status, malformed body) yields `none`. -/
def get_card_info (resp : Str → HttpOutcome) (name : Str) : Option Card :=
  if name.isEmpty then none
  else
    match resp name with
    | .ok 200 (some c) => some c
    | _ => none

/-- One collection entry resolution (the loop body building `pool`):
look up the stripped raw name; only if that yields nothing, look up the
normalized name.  Returns the result together with the list of lookup
queries issued. -/
def resolveQueries (lookup : Str → Option Card) (nm : Str) : Option Card × List Str :=
  match lookup nm with
  | some c => (some c, [nm])
  | none => (lookup (normName nm), [nm, normName nm])

/-- The collection-resolution loop: produces the resolved pool (in input
order) and the list of entries recorded as not found. -/
def buildPool (lookup : Str → Option Card) : List Str → List Card × List Str
  | [] => ([], [])
  | raw :: rest =>
    let info := (resolveQueries lookup (pyStrip raw)).1
    let pr := buildPool lookup rest
    match info with
    | some c => (c :: pr.1, pr.2)
    | none => (pr.1, raw :: pr.2)

/-- Outcome of the EDHREC page request: an exception anywhere in the
request/parsing, or a status code together with the candidate name texts
the scraping selectors extract from the parsed document (in discovery
order). -/
inductive FetchOutcome where
  | netFail
  | ok (status : Nat) (candidateTexts : List Str)
deriving DecidableEq

/-- The normalize-and-dedupe loop of `get_edhrec_card_names`: keeps the
stripped text of the first candidate for each nonempty normalized key. -/
def dedupNames (seen : List Str) : List Str → List Str
  | [] => []
  | t :: rest =>
    if !(normName (pyStrip t)).isEmpty && !seen.contains (normName (pyStrip t)) then
      pyStrip t :: dedupNames (normName (pyStrip t) :: seen) rest
    else dedupNames seen rest

/-- `get_edhrec_card_names`: empty commander name yields `[]`; non-200
status or any exception yields `[]`; otherwise the de-duplicated candidate
texts. -/
def get_edhrec_card_names (fetch : Str → FetchOutcome) (commanderName : Str) : List Str :=
  if commanderName.isEmpty then []
  else
    match fetch (asciiSlug commanderName) with
    | .ok 200 cands => dedupNames [] cands
    | _ => []

/-- Insertion into a Python dict modelled as an association list: an
existing key is overwritten in place (keeping its insertion position),
a new key is appended. -/
def dictInsert (k : Str) (v : Card) : List (Str × Card) → List (Str × Card)
  | [] => [(k, v)]
  | (k2, v2) :: rest => if k2 = k then (k2, v) :: rest else (k2, v2) :: dictInsert k v rest

/-- `scry_idx = {_norm_name(c.get("name","")): c for c in pool}`: later
entries with a duplicate key overwrite earlier ones. -/
def buildIdx (pool : List Card) : List (Str × Card) :=
  pool.foldl (fun m c => dictInsert (normName c.name) c m) []

/-- `scry_idx.get(key)`. -/
def idxGet (m : List (Str × Card)) (k : Str) : Option Card :=
  (m.find? (fun p => p.1 == k)).map Prod.snd

/-- The fixed staples list of the program. -/
def STAPLES : List Str :=
  [str "Sol Ring", str "Arcane Signet", str "Swiftfoot Boots", str "Lightning Greaves",
   str "Command Tower", str "Prophetic Prism", str "Fellwar Stone", str "Cultivate",
   str "Kodama\x27s Reach"]

/-- One step of the staples pass. -/
def stapleStep (idx : List (Str × Card)) (identity : List Char) (acc : List Card)
    (s : Str) : List Card :=
  match idxGet idx (normName s) with
  | some c => if is_commander_legal c identity ∧ c ∉ acc then acc ++ [c] else acc
  | none => acc

/-- The staples pass: owned, legal staples, de-duplicated among themselves
(the commander is not consulted here). -/
def stapleHits (idx : List (Str × Card)) (identity : List Char) : List Card :=
  STAPLES.foldl (stapleStep idx identity) []

/-- One step of the recommendation pass. -/
def ownedStep (idx : List (Str × Card)) (identity : List Char) (acc : List Card)
    (en : Str) : List Card :=
  match idxGet idx (normName en) with
  | some c => if is_commander_legal c identity then acc ++ [c] else acc
  | none => acc

/-- The recommendation pass: owned, legal EDHREC hits in recommendation
order (no de-duplication at this stage). -/
def ownedEdhrec (idx : List (Str × Card)) (identity : List Char) (names : List Str) : List Card :=
  names.foldl (ownedStep idx identity) []

/-- Sort key: `x.get("edhrec_rank") or 999999` (note `or` also replaces a
rank of 0). -/
def rankKey (c : Card) : Nat :=
  match c.edhrec_rank with
  | none => 999999
  | some r => if r = 0 then 999999 else r

/-- Sort key: `x.get("cmc") or 99` (note `or` also replaces a mana value
of 0). -/
def cmcKey (c : Card) : ℚ :=
  match c.cmc with
  | none => 99
  | some v => if v = 0 then 99 else v

/-- The lexicographic order `(rankKey, cmcKey)` used by the filler sort. -/
def sortLe (a b : Card) : Bool :=
  decide (rankKey a < rankKey b ∨ (rankKey a = rankKey b ∧ cmcKey a ≤ cmcKey b))

/-- Stable insertion keeping an earlier-seen element before later equal
keys. -/
def insSorted (x : Card) : List Card → List Card
  | [] => [x]
  | y :: ys => if sortLe x y then x :: y :: ys else y :: insSorted x ys

/-- Stable sort by `(rankKey, cmcKey)`; a stable sort is unique, so this
agrees with Python `list.sort(key=...)`. -/
def sortByRankCmc (l : List Card) : List Card := l.foldr insSorted []

/-- The filler candidate pool: collection cards (dict order) not already
recommendation hits and legal under the commander identity. -/
def fillerCands (idx : List (Str × Card)) (owned : List Card) (identity : List Char) :
    List Card :=
  (idx.map Prod.snd).filter (fun c => decide (c ∉ owned) && is_commander_legal c identity)

/-- Python `min(a, b)` on numbers (first argument wins ties). -/
def ratMin (a b : ℚ) : ℚ := if a ≤ b then a else b

/-- Python `max(a, b)` on numbers (first argument wins ties). -/
def ratMax (a b : ℚ) : ℚ := if b ≤ a then a else b

/-- `bias = max(0.0, min((avg_cmc-1)/6.0, 1.0))`, over exact rationals. -/
def biasOf (t : ℚ) : ℚ := ratMax 0 (ratMin ((t - 1) / 6) 1)

/-- `shift = int(len(fillers) * bias * 0.45)` (all factors nonnegative, so
`int` truncation is the floor). -/
def shiftOf (t : ℚ) (n : Nat) : Nat := (((n : ℚ) * biasOf t * (9 / 20)).floor).toNat

/-- The curve-bias rotation `fillers[shift:] + fillers[:shift]`, applied
only to a nonempty list. -/
def rotateBias (t : ℚ) (l : List Card) : List Card :=
  if l.isEmpty then l
  else l.drop (shiftOf t l.length) ++ l.take (shiftOf t l.length)

/-- `if c not in deck: deck.append(c)`. -/
def appendIfNew (deck : List Card) (c : Card) : List Card :=
  if c ∈ deck then deck else deck ++ [c]

/-- The filler loop: stop as soon as the deck has 100 cards, otherwise
append unseen cards. -/
def addFillers : List Card → List Card → List Card
  | deck, [] => deck
  | deck, c :: rest => if 100 ≤ deck.length then deck else addFillers (appendIfNew deck c) rest

/-- The deck before the filler pass: commander, staples, then owned
recommendation hits (each hit only if not already present). -/
def preFillerDeck (commander : Card) (pool : List Card) (edhrecNames : List Str) : List Card :=
  let idx := buildIdx pool
  let identity := commander.color_identity
  (ownedEdhrec idx identity edhrecNames).foldl appendIfNew
    ([commander] ++ stapleHits idx identity)

/-- The full deck assembly of the build action, ending in `deck[:100]`. -/
def assembleDeck (commander : Card) (pool : List Card) (edhrecNames : List Str)
    (avgCmcTarget : ℚ) : List Card :=
  let idx := buildIdx pool
  let identity := commander.color_identity
  let owned := ownedEdhrec idx identity edhrecNames
  let fillers := rotateBias avgCmcTarget (sortByRankCmc (fillerCands idx owned identity))
  (addFillers (preFillerDeck commander pool edhrecNames) fillers).take 100

/-- The cards the filler pass contributed to the final deck. -/
def fillerSelected (commander : Card) (pool : List Card) (edhrecNames : List Str) (t : ℚ) :
    List Card :=
  (assembleDeck commander pool edhrecNames t).drop (preFillerDeck commander pool edhrecNames).length

/-- Average mana value of a list of cards (0 for the empty list). -/
def avgManaValue (l : List Card) : ℚ :=
  if l.isEmpty then 0 else (l.map (fun c => (c.cmc).getD 0)).sum / l.length

/-- A row of the suggestion table. -/
structure SuggRow where
  name : Str
  price : ℚ
  type_line : Str
  cmc : Option ℚ
  func : Str
deriving DecidableEq

/-- `missing_names`: recommendation names whose normalized key is not a
key of the collection index. -/
def missingNames (idx : List (Str × Card)) (edhrecNames : List Str) : List Str :=
  edhrecNames.filter (fun n => (idxGet idx (normName n)).isNone)

/-- The dictionary appended for one suggested card. -/
def suggRow (info : Card) (price : ℚ) : SuggRow :=
  ⟨info.name, price, info.type_line, info.cmc, detect_function (some info)⟩

/-- The suggestion loop body over the capped missing-name list: resolve,
skip unresolved and illegal cards, then apply the price ceiling
(`max_price <= 0 or price <= max_price`). -/
def suggestedLoop (lookup : Str → Option Card) (identity : List Char) (maxPrice : ℚ) :
    List Str → List SuggRow
  | [] => []
  | nm :: rest =>
    match lookup nm with
    | none => suggestedLoop lookup identity maxPrice rest
    | some info =>
      if !is_commander_legal info identity then suggestedLoop lookup identity maxPrice rest
      else if maxPrice ≤ 0 ∨ get_price_eur (some info) ≤ maxPrice then
        suggRow info (get_price_eur (some info)) :: suggestedLoop lookup identity maxPrice rest
      else suggestedLoop lookup identity maxPrice rest

/-- `suggested`: the suggestion rows, built over `missing_names[:150]` in
resolution order. -/
def suggestedList (lookup : Str → Option Card) (idx : List (Str × Card)) (identity : List Char)
    (maxPrice : ℚ) (edhrecNames : List Str) : List SuggRow :=
  suggestedLoop lookup identity maxPrice ((missingNames idx edhrecNames).take 150)

/-- The classification decision list as the spec states it: an ordered
list of (tag, test) pairs, evaluated top to bottom, first match wins,
default `Other`.  Used to state the refinement theorem for
`detect_function`. -/
def classifyRules : List (Str × (Card → Bool)) :=
  [(str "Land", fun c => containsStr (lowerStr c.type_line) (str "land")),
   (str "Creature", fun c => containsStr (lowerStr c.type_line) (str "creature")),
   (str "Ramp", fun c => containsStr (lowerStr c.oracle_text) (str "add \x7bm")
      || containsStr (lowerStr c.oracle_text) (str "search your library for a land")
      || containsStr (lowerStr c.oracle_text) (str "ramp")),
   (str "Card Draw", fun c => containsStr (lowerStr c.oracle_text) (str "draw a card")
      || containsStr (lowerStr c.oracle_text) (str "scry")
      || containsStr (lowerStr c.oracle_text) (str "investigate")),
   (str "Removal/Interaction", fun c => containsStr (lowerStr c.oracle_text) (str "destroy target")
      || containsStr (lowerStr c.oracle_text) (str "exile target")
      || containsStr (lowerStr c.oracle_text) (str "counter target")
      || containsStr (lowerStr c.oracle_text) (str "fight target")),
   (str "Wincon/Finisher", fun c => containsStr (lowerStr c.oracle_text) (str "you win the game")
      || containsStr (lowerStr c.oracle_text) (str "extra turn")
      || containsStr (lowerStr c.oracle_text) (str "infinite")),
   (str "Artifact", fun c => containsStr (lowerStr c.type_line) (str "artifact")),
   (str "Enchantment", fun c => containsStr (lowerStr c.type_line) (str "enchantment")),
   (str "Instant", fun c => containsStr (lowerStr c.type_line) (str "instant")),
   (str "Sorcery", fun c => containsStr (lowerStr c.type_line) (str "sorcery"))]

/-- First-match-wins evaluation of `classifyRules`. -/
def classifySpec (c : Card) : Str :=
  ((classifyRules.find? (fun r => r.2 c)).map Prod.fst).getD (str "Other")

/-! ### Canonical strings: the image of `normName` -/

/-- Characters that can occur in a normalized name: lower case letters,
digits and the blank. -/
def canonChar (c : Char) : Bool := isLowerCh c || isDigitCh c || (c == ' ')

/-- No two adjacent blanks. -/
def noTwoBlanks : Str → Bool
  | a :: b :: r => (!((a == ' ') && (b == ' '))) && noTwoBlanks (b :: r)
  | _ => true

/-- The first character, when present, is not a blank. -/
def headNotBlank : Str → Bool
  | [] => true
  | c :: _ => !(c == ' ')

/-- The last character, when present, is not a blank. -/
def lastNotBlank : Str → Bool
  | [] => true
  | [c] => !(c == ' ')
  | _ :: r => lastNotBlank r

lemma canon_toNat {c : Char} (h : canonChar c = true) :
    c.toNat = 32 ∨ (48 ≤ c.toNat ∧ c.toNat ≤ 57) ∨ (97 ≤ c.toNat ∧ c.toNat ≤ 122) := by
  simp only [canonChar, isLowerCh, isDigitCh, Bool.or_eq_true, decide_eq_true_eq,
    beq_iff_eq] at h
  rcases h with (h | h) | h
  · right; right; exact h
  · right; left; exact h
  · left; rw [h]; rfl

lemma char_eq_blank_of_toNat {c : Char} (h : c.toNat = 32) : c = ' ' := by
  have h2 := Char.ofNat_toNat c
  rw [h] at h2
  exact h2.symm

lemma canon_reSpace {c : Char} (h : canonChar c = true) (hs : isReSpace c = true) : c = ' ' := by
  rcases canon_toNat h with h2 | h2 | h2
  · exact char_eq_blank_of_toNat h2
  all_goals {
    simp only [isReSpace, Bool.or_eq_true, decide_eq_true_eq] at hs
    omega }

lemma canon_pySpace {c : Char} (h : canonChar c = true) (hs : isPySpace c = true) : c = ' ' := by
  simp only [isPySpace, Bool.or_eq_true, decide_eq_true_eq] at hs
  rcases hs with hs | hs | hs | hs | hs
  · exact canon_reSpace h hs
  all_goals {
    rcases canon_toNat h with h2 | h2 | h2 <;> omega }

lemma blank_isReSpace : isReSpace ' ' = true := by decide

lemma blank_isPySpace : isPySpace ' ' = true := by decide

lemma canon_not_pySpace {c : Char} (h : canonChar c = true) (hb : (c == ' ') = false) :
    isPySpace c = false := by
  cases hp : isPySpace c
  · rfl
  · have := canon_pySpace h hp
    rw [this] at hb
    simp at hb

lemma canon_lt128 {c : Char} (h : canonChar c = true) : c.toNat < 128 := by
  rcases canon_toNat h with h2 | h2 | h2 <;> omega

lemma canon_toLower {c : Char} (h : canonChar c = true) : c.toLower = c := by
  unfold Char.toLower
  have h2 := canon_toNat h
  rw [if_neg]
  omega

lemma canon_keepChar {c : Char} (h : canonChar c = true) : keepChar c = true := by
  simp only [keepChar, Bool.or_eq_true, decide_eq_true_eq]
  rcases canon_toNat h with h2 | h2 | h2
  · right; right; simp only [isReSpace, Bool.or_eq_true, decide_eq_true_eq]; omega
  · right; left; simp only [isDigitCh, decide_eq_true_eq]

    omega
  · left; simp only [isLowerCh, decide_eq_true_eq]; omega

lemma canon_not_paren {c : Char} (h : canonChar c = true) : c ≠ '(' := by
  intro he
  rw [he] at h
  exact absurd h (by decide)

lemma not_reSpace_ne_blank {c : Char} (h : isReSpace c = false) : (c == ' ') = false := by
  cases hb : c == ' '
  · rfl
  · rw [beq_iff_eq] at hb
    rw [hb] at h
    exact absurd h (by decide)

lemma not_pySpace_ne_blank {c : Char} (h : isPySpace c = false) : (c == ' ') = false := by
  cases hb : c == ' '
  · rfl
  · rw [beq_iff_eq] at hb
    rw [hb] at h
    exact absurd h (by decide)

lemma noTwoBlanks_tail {c : Char} {l : Str} (h : noTwoBlanks (c :: l) = true) :
    noTwoBlanks l = true := by
  cases l with
  | nil => rfl
  | cons x xs =>
    simp only [noTwoBlanks, Bool.and_eq_true] at h
    exact h.2

lemma noTwoBlanks_head {c : Char} {l : Str} (h : noTwoBlanks (c :: l) = true)
    (hc : (c == ' ') = true) : headNotBlank l = true := by
  cases l with
  | nil => rfl
  | cons x xs =>
    simp only [noTwoBlanks, Bool.and_eq_true, Bool.not_eq_true', Bool.and_eq_false_iff] at h
    rcases h.1 with h1 | h1
    · rw [hc] at h1; cases h1
    · show (!(x == ' ')) = true
      rw [h1]
      rfl

lemma noTwoBlanks_cons {c : Char} {l : Str} (hl : noTwoBlanks l = true)
    (h : (c == ' ') = false ∨ headNotBlank l = true) : noTwoBlanks (c :: l) = true := by
  cases l with
  | nil => rfl
  | cons x xs =>
    simp only [noTwoBlanks, Bool.and_eq_true, Bool.not_eq_true', Bool.and_eq_false_iff]
    refine ⟨?_, hl⟩
    rcases h with h | h
    · left; exact h
    · right
      simp only [headNotBlank, Bool.not_eq_true'] at h
      exact h

lemma keep_not_space_canon {c : Char} (h : keepChar c = true) (hs : isReSpace c = false) :
    canonChar c = true := by
  simp only [keepChar, Bool.or_eq_true, decide_eq_true_eq] at h
  rcases h with h | h | h
  · simp [canonChar, h]
  · simp [canonChar, h]
  · rw [h] at hs; cases hs

lemma canonChar_blank : canonChar ' ' = true := by decide

lemma collapse_all_canon : ∀ (l : Str) (b : Bool), l.all keepChar = true →
    (collapseRuns isReSpace ' ' b l).all canonChar = true
  | [], _, _ => rfl
  | c :: r, b, h => by
    simp only [List.all_cons, Bool.and_eq_true] at h
    simp only [collapseRuns]
    split
    · next hsp =>
      cases b with
      | true =>
        rw [if_pos rfl]
        exact collapse_all_canon r true h.2
      | false =>
        rw [if_neg (by decide)]
        simp only [List.all_cons, Bool.and_eq_true]
        exact ⟨canonChar_blank, collapse_all_canon r true h.2⟩
    · next hsp =>
      simp only [List.all_cons, Bool.and_eq_true]
      have hs : isReSpace c = false := by
        cases hx : isReSpace c
        · rfl
        · exact absurd hx hsp
      exact ⟨keep_not_space_canon h.1 hs, collapse_all_canon r false h.2⟩

lemma collapse_head : ∀ (l : Str), headNotBlank (collapseRuns isReSpace ' ' true l) = true
  | [] => rfl
  | c :: r => by
    simp only [collapseRuns]
    split
    · exact collapse_head r
    · next hsp =>
      have hs : isReSpace c = false := by
        cases hx : isReSpace c
        · rfl
        · exact absurd hx hsp
      simp only [headNotBlank]
      rw [not_reSpace_ne_blank hs]
      rfl

lemma collapse_noTwo : ∀ (l : Str) (b : Bool),
    noTwoBlanks (collapseRuns isReSpace ' ' b l) = true
  | [], _ => rfl
  | c :: r, b => by
    simp only [collapseRuns]
    split
    · cases b with
      | true =>
        rw [if_pos rfl]
        exact collapse_noTwo r true
      | false =>
        rw [if_neg (by decide)]
        exact noTwoBlanks_cons (collapse_noTwo r true) (Or.inr (collapse_head r))
    · next hsp =>
      have hs : isReSpace c = false := by
        cases hx : isReSpace c
        · rfl
        · exact absurd hx hsp
      exact noTwoBlanks_cons (collapse_noTwo r false) (Or.inl (not_reSpace_ne_blank hs))

lemma all_dropWhile {p q : Char → Bool} : ∀ {l : Str}, l.all q = true →
    (l.dropWhile p).all q = true
  | [], _ => rfl
  | c :: r, h => by
    simp only [List.all_cons, Bool.and_eq_true] at h
    rw [List.dropWhile_cons]
    split
    · exact all_dropWhile h.2
    · simp only [List.all_cons, Bool.and_eq_true]
      exact ⟨h.1, h.2⟩

lemma all_rstripBy {p q : Char → Bool} : ∀ {l : Str}, l.all q = true →
    (rstripBy p l).all q = true
  | [], _ => rfl
  | c :: r, h => by
    simp only [List.all_cons, Bool.and_eq_true] at h
    simp only [rstripBy]
    split
    · rfl
    · simp only [List.all_cons, Bool.and_eq_true]
      exact ⟨h.1, all_rstripBy h.2⟩

lemma rstripBy_head (p : Char → Bool) (c : Char) (r : Str) :
    rstripBy p (c :: r) = [] ∨ ∃ t, rstripBy p (c :: r) = c :: t := by
  simp only [rstripBy]
  split
  · left; rfl
  · right; exact ⟨_, rfl⟩

lemma headNotBlank_rstripBy {p : Char → Bool} {l : Str} (h : headNotBlank l = true) :
    headNotBlank (rstripBy p l) = true := by
  cases l with
  | nil => rfl
  | cons c r =>
    rcases rstripBy_head p c r with h2 | ⟨t, h2⟩
    · rw [h2]; rfl
    · rw [h2]; exact h

lemma lastNotBlank_rstripBy : ∀ (l : Str), lastNotBlank (rstripBy isPySpace l) = true
  | [] => rfl
  | c :: r => by
    simp only [rstripBy]
    split
    · rfl
    · next hcond =>
      rcases hR : rstripBy isPySpace r with _ | ⟨x, t⟩
      · have hpc : isPySpace c = false := by
          cases hx : isPySpace c
          · rfl
          · exact absurd ⟨hR, hx⟩ hcond
        show lastNotBlank [c] = true
        show (!(c == ' ')) = true
        rw [not_pySpace_ne_blank hpc]
        rfl
      · have := lastNotBlank_rstripBy r
        rw [hR] at this
        show lastNotBlank (c :: x :: t) = true
        exact this

lemma noTwoBlanks_dropWhile {p : Char → Bool} : ∀ {l : Str}, noTwoBlanks l = true →
    noTwoBlanks (l.dropWhile p) = true
  | [], _ => rfl
  | c :: r, h => by
    rw [List.dropWhile_cons]
    split
    · exact noTwoBlanks_dropWhile (noTwoBlanks_tail h)
    · exact h

lemma noTwoBlanks_rstripBy : ∀ {l : Str}, noTwoBlanks l = true →
    noTwoBlanks (rstripBy isPySpace l) = true
  | [], _ => rfl
  | c :: r, h => by
    simp only [rstripBy]
    split
    · rfl
    · rcases hR : rstripBy isPySpace r with _ | ⟨x, t⟩
      · rfl
      · have hr := noTwoBlanks_rstripBy (noTwoBlanks_tail h)
        rw [hR] at hr
        refine noTwoBlanks_cons hr ?_
        cases r with
        | nil => cases hR
        | cons y ys =>
          rcases rstripBy_head isPySpace y ys with h2 | ⟨t2, h2⟩
          · rw [h2] at hR; cases hR
          · rw [h2] at hR
            cases hR
            cases hb : c == ' '
            · left; rfl
            · right
              have hy := noTwoBlanks_head h hb
              exact hy

lemma headNotBlank_dropWhile : ∀ (l : Str), headNotBlank (l.dropWhile isPySpace) = true
  | [] => rfl
  | c :: r => by
    rw [List.dropWhile_cons]
    split
    · exact headNotBlank_dropWhile r
    · next hp =>
      have hpc : isPySpace c = false := by
        cases hx : isPySpace c
        · rfl
        · exact absurd hx hp
      show (!(c == ' ')) = true
      rw [not_pySpace_ne_blank hpc]
      rfl

lemma pyStrip_all {q : Char → Bool} {l : Str} (h : l.all q = true) :
    (pyStrip l).all q = true := all_rstripBy (all_dropWhile h)

lemma pyStrip_noTwo {l : Str} (h : noTwoBlanks l = true) : noTwoBlanks (pyStrip l) = true :=
  noTwoBlanks_rstripBy (noTwoBlanks_dropWhile h)

lemma pyStrip_headNotBlank (l : Str) : headNotBlank (pyStrip l) = true :=
  headNotBlank_rstripBy (headNotBlank_dropWhile l)

lemma pyStrip_lastNotBlank (l : Str) : lastNotBlank (pyStrip l) = true :=
  lastNotBlank_rstripBy _

/-- Every normalized name is canonical: only lower case letters, digits and
single blanks, with no blank at either end. -/
lemma normName_canon (s : Str) :
    (normName s).all canonChar = true ∧ noTwoBlanks (normName s) = true ∧
      headNotBlank (normName s) = true ∧ lastNotBlank (normName s) = true := by
  unfold normName
  split
  · exact ⟨rfl, rfl, rfl, rfl⟩
  · have hfilter : ((parenSub (dropCountPfx (pyStrip (lowerStr (asciiFilter s))))).filter
        keepChar).all keepChar = true := by
      rw [List.all_eq_true]
      intro a ha
      exact (List.mem_filter.mp ha).2
    exact ⟨pyStrip_all (collapse_all_canon _ false hfilter),
      pyStrip_noTwo (collapse_noTwo _ false),
      pyStrip_headNotBlank _, pyStrip_lastNotBlank _⟩

lemma asciiFilter_canon {l : Str} (h : l.all canonChar = true) : asciiFilter l = l := by
  rw [List.all_eq_true] at h
  exact List.filter_eq_self.mpr (fun a ha => decide_eq_true (canon_lt128 (h a ha)))

lemma lowerStr_canon : ∀ {l : Str}, l.all canonChar = true → lowerStr l = l
  | [], _ => rfl
  | c :: r, h => by
    simp only [List.all_cons, Bool.and_eq_true] at h
    show c.toLower :: lowerStr r = c :: r
    rw [canon_toLower h.1, lowerStr_canon h.2]

lemma filter_keep_canon {l : Str} (h : l.all canonChar = true) : l.filter keepChar = l := by
  rw [List.all_eq_true] at h
  exact List.filter_eq_self.mpr (fun a ha => canon_keepChar (h a ha))

lemma rstripBy_id : ∀ {l : Str}, lastNotBlank l = true → l.all canonChar = true →
    rstripBy isPySpace l = l
  | [], _, _ => rfl
  | c :: r, hl, hc => by
    simp only [List.all_cons, Bool.and_eq_true] at hc
    cases r with
    | nil =>
      have hb : (c == ' ') = false := by
        simp only [lastNotBlank, Bool.not_eq_true'] at hl
        exact hl
      have hps : isPySpace c = false := canon_not_pySpace hc.1 hb
      simp only [rstripBy]
      rw [if_neg]
      intro hand
      rw [hps] at hand
      exact absurd hand.2 (by decide)
    | cons x xs =>
      have hr : rstripBy isPySpace (x :: xs) = x :: xs := rstripBy_id hl hc.2
      simp only [rstripBy] at hr ⊢
      rw [hr, if_neg]
      intro hand
      cases hand.1

lemma pyStrip_id {l : Str} (hh : headNotBlank l = true) (hl : lastNotBlank l = true)
    (hc : l.all canonChar = true) : pyStrip l = l := by
  cases l with
  | nil => rfl
  | cons c r =>
    simp only [List.all_cons, Bool.and_eq_true] at hc
    have hb : (c == ' ') = false := by
      simp only [headNotBlank, Bool.not_eq_true'] at hh
      exact hh
    have hps : isPySpace c = false := canon_not_pySpace hc.1 hb
    unfold pyStrip
    rw [List.dropWhile_cons, if_neg (by rw [hps]; exact (by decide))]
    exact rstripBy_id hl (by simp only [List.all_cons, Bool.and_eq_true]; exact hc)

lemma parenSubAux_no_open : ∀ (l kept ws : Str), '(' ∉ l →
    parenSubAux kept ws l = kept.reverse ++ ws.reverse ++ l
  | [], kept, ws, _ => by simp [parenSubAux]
  | c :: rest, kept, ws, h => by
    have hc : c ≠ '(' := fun he => h (he ▸ List.mem_cons_self c rest)
    have hrest : '(' ∉ rest := fun he => h (List.mem_cons_of_mem c he)
    simp only [parenSubAux]
    rw [if_neg (fun hand => hc hand.1)]
    split
    · rw [parenSubAux_no_open rest kept (c :: ws) hrest]
      simp
    · rw [parenSubAux_no_open rest (c :: (ws ++ kept)) [] hrest]
      simp

lemma parenSub_canon {l : Str} (h : l.all canonChar = true) : parenSub l = l := by
  rw [List.all_eq_true] at h
  have hno : '(' ∉ l := fun hin => canon_not_paren (h _ hin) rfl
  unfold parenSub
  rw [parenSubAux_no_open l [] [] hno]
  rfl

lemma collapse_id : ∀ {l : Str}, l.all canonChar = true → noTwoBlanks l = true →
    collapseRuns isReSpace ' ' false l = l ∧
      (headNotBlank l = true → collapseRuns isReSpace ' ' true l = l)
  | [], _, _ => ⟨rfl, fun _ => rfl⟩
  | c :: r, hc, h2 => by
    simp only [List.all_cons, Bool.and_eq_true] at hc
    have ih := collapse_id hc.2 (noTwoBlanks_tail h2)
    cases hsp : isReSpace c with
    | true =>
      have hcb : c = ' ' := canon_reSpace hc.1 hsp
      have hr : collapseRuns isReSpace ' ' true r = r := by
        apply ih.2
        apply noTwoBlanks_head h2
        rw [hcb]
        rfl
      constructor
      · show (if isReSpace c = true then _ else _) = c :: r
        rw [if_pos hsp, if_neg (by decide), hr, hcb]
      · intro hh
        simp only [headNotBlank, Bool.not_eq_true'] at hh
        rw [hcb] at hh
        exact absurd hh (by decide)
    | false =>
      constructor
      · show (if isReSpace c = true then _ else _) = c :: r
        rw [if_neg (by rw [hsp]; exact (by decide)), ih.1]
      · intro _
        show (if isReSpace c = true then _ else _) = c :: r
        rw [if_neg (by rw [hsp]; exact (by decide)), ih.1]

/-- A canonical string without a leading count is a fixed point of
`normName`. -/
lemma normName_canon_fix {l : Str} (hc : l.all canonChar = true)
    (h2 : noTwoBlanks l = true) (hh : headNotBlank l = true) (hl : lastNotBlank l = true)
    (hp : hasCountPfx l = false) : normName l = l := by
  unfold normName
  split
  · next he => exact he.symm
  · rw [asciiFilter_canon hc, lowerStr_canon hc, pyStrip_id hh hl hc]
    unfold dropCountPfx
    rw [if_neg (by rw [hp]; exact (by decide))]
    rw [parenSub_canon hc, filter_keep_canon hc, (collapse_id hc h2).1, pyStrip_id hh hl hc]

/-- C4 counterexample: `_norm_name` is not idempotent.  The input
`"2 2 sol ring"` normalizes to `"2 sol ring"` (one count removed), which
normalizes again to `"sol ring"`. -/
theorem norm_name_idempotence_counterexample :
    normName (normName (str "2 2 sol ring")) ≠ normName (str "2 2 sol ring") ∧
      normName (str "2 2 sol ring") = str "2 sol ring" ∧
      normName (normName (str "2 2 sol ring")) = str "sol ring" := by
  refine ⟨?_, ?_, ?_⟩ <;> decide

/-- C4 (amended): `_norm_name (_norm_name x) = _norm_name x` for every `x`
whose normalized form does not itself begin with a digit run followed by
whitespace (a second quantity count); it strips a leading numeric count, a
trailing parenthesized annotation and collapses whitespace, so that
`"Sol Ring"`, `"2 sol ring (M21)"` and `"SOL RING"` share one key. -/
theorem norm_name_amended :
    (∀ x : Str, hasCountPfx (normName x) = false → normName (normName x) = normName x) ∧
    normName (str "Sol Ring") = normName (str "2 sol ring (M21)") ∧
    normName (str "Sol Ring") = normName (str "SOL RING") := by
  refine ⟨?_, by decide, by decide⟩
  intro x hp
  obtain ⟨hc, h2, hh, hl⟩ := normName_canon x
  exact normName_canon_fix hc h2 hh hl hp

/-- Witness for `norm_name_amended` at the input `"3 Sol Rings"`. -/
theorem norm_name_amended_witness :
    hasCountPfx (normName (str "3 Sol Rings")) = false ∧
    normName (normName (str "3 Sol Rings")) = normName (str "3 Sol Rings") :=
  ⟨by decide, norm_name_amended.1 (str "3 Sol Rings") (by decide)⟩

/-- A card whose EUR price string is malformed while its USD price is a
valid decimal. -/
def malformedPriceCard : Card :=
  ⟨str "rhystic study", str "enchantment", [], some 3, ['U'], some 50,
    some (str "abc"), some (str "2.5")⟩

/-- C5 counterexample: a malformed EUR price with a valid USD price yields
0, not the USD price — the exception from `float(eur)` skips the USD
fallback. -/
theorem price_malformed_eur_counterexample :
    pyFloat (str "2.5") = some (5 / 2) ∧
    get_price_eur (some malformedPriceCard) = 0 ∧
    get_price_eur (some malformedPriceCard) ≠ 5 / 2 := by
  refine ⟨?_, ?_, ?_⟩ <;> with_unfolding_all decide

lemma truthy_of_some_ne {e : Str} (hne : e ≠ []) : truthyOptStr (some e) = true := by
  cases e with
  | nil => exact absurd rfl hne
  | cons c r => rfl

/-- C5 (amended): EUR price returned when present, nonempty and parseable;
a malformed nonempty EUR string yields 0 even when USD is valid; USD is
used only when EUR is absent or empty; 0 when both are absent or empty. -/
theorem get_price_eur_amended (c : Card) :
    (∀ e q, c.price_eur = some e → e ≠ [] → pyFloat e = some q → get_price_eur (some c) = q) ∧
    (∀ e, c.price_eur = some e → e ≠ [] → pyFloat e = none → get_price_eur (some c) = 0) ∧
    (truthyOptStr c.price_eur = false → ∀ u q, c.price_usd = some u → u ≠ [] →
      pyFloat u = some q → get_price_eur (some c) = q) ∧
    (truthyOptStr c.price_eur = false → truthyOptStr c.price_usd = false →
      get_price_eur (some c) = 0) := by
  refine ⟨?_, ?_, ?_, ?_⟩
  · intro e q he hne hq
    show (if truthyOptStr c.price_eur = true then _ else _) = q
    rw [he, if_pos (truthy_of_some_ne hne)]
    simp [hq]
  · intro e he hne hq
    show (if truthyOptStr c.price_eur = true then _ else _) = 0
    rw [he, if_pos (truthy_of_some_ne hne)]
    simp [hq]
  · intro hef u q hu hne hq
    show (if truthyOptStr c.price_eur = true then _ else _) = q
    rw [hef]
    rw [if_neg (by decide)]
    rw [hu, if_pos (truthy_of_some_ne hne)]
    simp [hq]
  · intro hef huf
    show (if truthyOptStr c.price_eur = true then _ else _) = 0
    rw [hef, if_neg (by decide), huf, if_neg (by decide)]

/-- A card with a well-formed EUR price. -/
def eurPriceCard : Card := ⟨str "card a", [], [], some 1, [], none, some (str "1.5"), some (str "9.0")⟩

/-- Witness for `get_price_eur_amended`: the EUR branch at a concrete
card. -/
theorem get_price_eur_amended_witness :
    eurPriceCard.price_eur = some (str "1.5") ∧ str "1.5" ≠ [] ∧
      pyFloat (str "1.5") = some (3 / 2) ∧ get_price_eur (some eurPriceCard) = 3 / 2 :=
  ⟨rfl, by decide, by with_unfolding_all decide,
    (get_price_eur_amended eurPriceCard).1 (str "1.5") (3 / 2) rfl (by decide)
      (by with_unfolding_all decide)⟩

lemma resolveQueries_none {lookup : Str → Option Card} {nm : Str}
    (h : (resolveQueries lookup nm).1 = none) :
    lookup nm = none ∧ lookup (normName nm) = none := by
  unfold resolveQueries at h
  split at h
  · next c heq => cases h
  · next heq => exact ⟨heq, h⟩

/-- C3: (1) resolution queries the lookup first with the (stripped) raw
name and, exactly when that returns nothing, once more with the normalized
name; (2) an entry lands in the not-found list only when both lookups
return nothing; (3) `get_card_info` never raises: every response other
than a parsed status-200 body yields the `none` sentinel. -/
theorem resolver_retry_and_totality :
    (∀ (lookup : Str → Option Card) (nm : Str),
      (lookup nm ≠ none → resolveQueries lookup nm = (lookup nm, [nm])) ∧
      (lookup nm = none →
        resolveQueries lookup nm = (lookup (normName nm), [nm, normName nm]))) ∧
    (∀ (lookup : Str → Option Card) (raws : List Str) (raw : Str),
      raw ∈ (buildPool lookup raws).2 →
        lookup (pyStrip raw) = none ∧ lookup (normName (pyStrip raw)) = none) ∧
    (∀ (resp : Str → HttpOutcome) (name : Str),
      get_card_info resp name = none ∨
        ∃ c, resp name = .ok 200 (some c) ∧ get_card_info resp name = some c) := by
  refine ⟨?_, ?_, ?_⟩
  · intro lookup nm
    constructor
    · intro h
      unfold resolveQueries
      split
      · next c heq => rw [heq]
      · next heq => exact absurd heq h
    · intro h
      unfold resolveQueries
      split
      · next c heq => rw [heq] at h; cases h
      · next heq => rfl
  · intro lookup raws
    induction raws with
    | nil => intro raw h; cases h
    | cons x rest ih =>
      intro raw h
      unfold buildPool at h
      rcases hinfo : (resolveQueries lookup (pyStrip x)).1 with _ | c
      · rw [hinfo] at h
        rcases List.mem_cons.mp h with h2 | h2
        · subst h2
          exact resolveQueries_none hinfo
        · exact ih raw h2
      · rw [hinfo] at h
        exact ih raw h
  · intro resp name
    unfold get_card_info
    split
    · exact Or.inl rfl
    · split
      · next c heq => exact Or.inr ⟨c, heq, rfl⟩
      · exact Or.inl rfl

/-- Witness for `resolver_retry_and_totality`: with a lookup that always
fails, the entry `"q"` is recorded as not found and both its queries
returned nothing. -/
theorem resolver_retry_witness :
    str "q" ∈ (buildPool (fun _ => (none : Option Card)) [str "q"]).2 ∧
    ((fun _ : Str => (none : Option Card)) (pyStrip (str "q")) = none ∧
     (fun _ : Str => (none : Option Card)) (normName (pyStrip (str "q"))) = none) :=
  ⟨by decide,
    resolver_retry_and_totality.2.1 (fun _ => none) [str "q"] (str "q") (by decide)⟩

lemma dedup_cond_true {seen : List Str} {key : Str}
    (h : (!key.isEmpty && !seen.contains key) = true) : key ≠ [] ∧ key ∉ seen := by
  simp only [Bool.and_eq_true, Bool.not_eq_true', List.isEmpty_eq_false,
    List.contains_eq_any_beq, List.any_eq_false, beq_iff_eq] at h
  refine ⟨h.1, fun hmem => ?_⟩
  exact h.2 key hmem rfl

lemma dedup_cond_false {seen : List Str} {key : Str}
    (h : (!key.isEmpty && !seen.contains key) = false) : key = [] ∨ key ∈ seen := by
  simp only [Bool.and_eq_false_iff, Bool.not_eq_false', List.isEmpty_eq_true,
    List.contains_eq_any_beq, List.any_eq_true, beq_iff_eq] at h
  rcases h with h | h
  · exact Or.inl h
  · rcases h with ⟨x, hx, he⟩
    exact Or.inr (he ▸ hx)

lemma dedupNames_mem : ∀ (cands seen : List Str) (n : Str), n ∈ dedupNames seen cands →
    normName n ≠ [] ∧ normName n ∉ seen ∧
      (cands.map pyStrip).find? (fun m => decide (normName m = normName n)) = some n
  | [], _, _, h => by cases h
  | t :: rest, seen, n, h => by
    unfold dedupNames at h
    split at h
    · next hcond =>
      obtain ⟨hkey, hseen⟩ := dedup_cond_true hcond
      rcases List.mem_cons.mp h with h2 | h2
      · subst h2
        refine ⟨hkey, hseen, ?_⟩
        rw [List.map_cons, List.find?_cons_of_pos _ (by simp)]
      · obtain ⟨ih1, ih2, ih3⟩ := dedupNames_mem rest _ n h2
        have hne : normName n ≠ normName (pyStrip t) :=
          fun he => ih2 (List.mem_cons.mpr (Or.inl he))
        refine ⟨ih1, fun hmem => ih2 (List.mem_cons.mpr (Or.inr hmem)), ?_⟩
        rw [List.map_cons, List.find?_cons_of_neg _ (by simp; exact fun he => hne he.symm)]
        exact ih3
    · next hcond =>
      obtain ⟨ih1, ih2, ih3⟩ := dedupNames_mem rest seen n h
      have hne : normName (pyStrip t) ≠ normName n := by
        rcases dedup_cond_false (Bool.eq_false_iff.mpr hcond) with h2 | h2
        · rw [h2]; exact fun he => ih1 he.symm
        · exact fun he => ih2 (he ▸ h2)
      refine ⟨ih1, ih2, ?_⟩
      rw [List.map_cons, List.find?_cons_of_neg _ (by simp; exact hne)]
      exact ih3

lemma dedupNames_sublist : ∀ (cands seen : List Str),
    List.Sublist (dedupNames seen cands) (cands.map pyStrip)
  | [], _ => List.Sublist.refl _
  | t :: rest, seen => by
    unfold dedupNames
    split
    · exact List.Sublist.cons₂ _ (dedupNames_sublist rest _)
    · exact List.Sublist.cons _ (dedupNames_sublist rest seen)

lemma dedupNames_pairwise : ∀ (cands seen : List Str),
    (dedupNames seen cands).Pairwise (fun a b => normName a ≠ normName b)
  | [], _ => List.Pairwise.nil
  | t :: rest, seen => by
    unfold dedupNames
    split
    · refine List.Pairwise.cons ?_ (dedupNames_pairwise rest _)
      intro b hb
      obtain ⟨_, hb2, _⟩ := dedupNames_mem rest _ b hb
      exact fun he => hb2 (List.mem_cons.mpr (Or.inl he.symm))
    · exact dedupNames_pairwise rest seen

/-- C8: the recommendation fetcher output has pairwise distinct normalized
keys; each kept entry is the (stripped) first candidate bearing its key,
in discovery order (a sublist of the stripped candidates); a network/parse
failure or a non-200 status yields the empty list. -/
theorem edhrec_dedup_props :
    (∀ (fetch : Str → FetchOutcome) (cm : Str),
      (get_edhrec_card_names fetch cm).Pairwise (fun a b => normName a ≠ normName b)) ∧
    (∀ (cands : List Str) (n : Str), n ∈ dedupNames [] cands →
      (cands.map pyStrip).find? (fun m => decide (normName m = normName n)) = some n) ∧
    (∀ (cands : List Str), List.Sublist (dedupNames [] cands) (cands.map pyStrip)) ∧
    (∀ (fetch : Str → FetchOutcome) (cm : Str), fetch (asciiSlug cm) = .netFail →
      get_edhrec_card_names fetch cm = []) ∧
    (∀ (fetch : Str → FetchOutcome) (cm : Str) (st : Nat) (cands : List Str), st ≠ 200 →
      fetch (asciiSlug cm) = .ok st cands → get_edhrec_card_names fetch cm = []) := by
  refine ⟨?_, ?_, ?_, ?_, ?_⟩
  · intro fetch cm
    unfold get_edhrec_card_names
    split
    · exact List.Pairwise.nil
    · split
      · exact dedupNames_pairwise _ _
      · exact List.Pairwise.nil
  · intro cands n h
    exact (dedupNames_mem cands [] n h).2.2
  · intro cands
    exact dedupNames_sublist cands []
  · intro fetch cm h
    unfold get_edhrec_card_names
    split
    · rfl
    · split
      · next cands2 heq => rw [h] at heq; cases heq
      · rfl
  · intro fetch cm st cands hst h
    unfold get_edhrec_card_names
    split
    · rfl
    · split
      · next cands2 heq =>
        rw [h] at heq
        cases heq
        exact absurd rfl hst
      · rfl

/-- A demonstration candidate list: the second entry duplicates the key of
the first. -/
def dedupDemo : List Str := [str "Sol Ring", str "2 sol ring (M21)", str "Rhystic Study"]

/-- Witness for `edhrec_dedup_props`: on `dedupDemo` the kept entry
`"Rhystic Study"` is the first candidate with its key, and a failing fetch
yields the empty list. -/
theorem edhrec_dedup_witness :
    str "Rhystic Study" ∈ dedupNames [] dedupDemo ∧
    (dedupDemo.map pyStrip).find?
      (fun m => decide (normName m = normName (str "Rhystic Study"))) =
        some (str "Rhystic Study") ∧
    get_edhrec_card_names (fun _ => .netFail) (str "atraxa") = [] :=
  ⟨by decide,
    edhrec_dedup_props.2.1 dedupDemo (str "Rhystic Study") (by decide),
    edhrec_dedup_props.2.2.2.1 (fun _ => .netFail) (str "atraxa") rfl⟩

lemma find?_rule_pos {c : Card} {tag : Str} {test : Card → Bool}
    {rest : List (Str × (Card → Bool))} (h : test c = true) :
    List.find? (fun r => r.2 c) ((tag, test) :: rest) = some (tag, test) :=
  List.find?_cons_of_pos _ h

lemma find?_rule_neg {c : Card} {tag : Str} {test : Card → Bool}
    {rest : List (Str × (Card → Bool))} (h : test c = false) :
    List.find? (fun r => r.2 c) ((tag, test) :: rest) = List.find? (fun r => r.2 c) rest := by
  apply List.find?_cons_of_neg
  intro hc
  have hc2 : test c = true := hc
  rw [h] at hc2
  cases hc2

/-- C9 (amended): `detect_function` is exactly the first-match-wins
evaluation of the priority-ordered decision list `classifyRules`
(Land, Creature, Ramp, Card Draw, Removal/Interaction, Wincon/Finisher,
Artifact, Enchantment, Instant, Sorcery, default Other); and every card
whose type line contains `"creature"` but not `"land"` is classified
Creature even when its ability text contains draw language. -/
theorem classify_priority_amended :
    (∀ c : Card, detect_function (some c) = classifySpec c) ∧
    (∀ c : Card, containsStr (lowerStr c.type_line) (str "creature") = true →
      containsStr (lowerStr c.type_line) (str "land") = false →
      detect_function (some c) = str "Creature") := by
  constructor
  · intro c
    have hL : detect_function (some c) =
        (if containsStr (lowerStr c.type_line) (str "land") = true then str "Land" else (if containsStr (lowerStr c.type_line) (str "creature") = true then str "Creature" else (if (containsStr (lowerStr c.oracle_text) (str "add \x7bm") || containsStr (lowerStr c.oracle_text) (str "search your library for a land") || containsStr (lowerStr c.oracle_text) (str "ramp")) = true then str "Ramp" else (if (containsStr (lowerStr c.oracle_text) (str "draw a card") || containsStr (lowerStr c.oracle_text) (str "scry") || containsStr (lowerStr c.oracle_text) (str "investigate")) = true then str "Card Draw" else (if (containsStr (lowerStr c.oracle_text) (str "destroy target") || containsStr (lowerStr c.oracle_text) (str "exile target") || containsStr (lowerStr c.oracle_text) (str "counter target") || containsStr (lowerStr c.oracle_text) (str "fight target")) = true then str "Removal/Interaction" else (if (containsStr (lowerStr c.oracle_text) (str "you win the game") || containsStr (lowerStr c.oracle_text) (str "extra turn") || containsStr (lowerStr c.oracle_text) (str "infinite")) = true then str "Wincon/Finisher" else (if containsStr (lowerStr c.type_line) (str "artifact") = true then str "Artifact" else (if containsStr (lowerStr c.type_line) (str "enchantment") = true then str "Enchantment" else (if containsStr (lowerStr c.type_line) (str "instant") = true then str "Instant" else (if containsStr (lowerStr c.type_line) (str "sorcery") = true then str "Sorcery" else str "Other")))))))))) := rfl
    rw [hL]
    unfold classifySpec classifyRules
    cases h1 : containsStr (lowerStr c.type_line) (str "land") with
    | true =>
      rw [find?_rule_pos h1, if_pos rfl]
      rfl
    | false =>
      rw [find?_rule_neg h1, if_neg (show ¬(false = true) by decide)]
      cases h2 : containsStr (lowerStr c.type_line) (str "creature") with
      | true =>
        rw [find?_rule_pos h2, if_pos rfl]
        rfl
      | false =>
        rw [find?_rule_neg h2, if_neg (show ¬(false = true) by decide)]
        cases h3 : (containsStr (lowerStr c.oracle_text) (str "add \x7bm") || containsStr (lowerStr c.oracle_text) (str "search your library for a land") || containsStr (lowerStr c.oracle_text) (str "ramp")) with
        | true =>
          rw [find?_rule_pos h3, if_pos rfl]
          rfl
        | false =>
          rw [find?_rule_neg h3, if_neg (show ¬(false = true) by decide)]
          cases h4 : (containsStr (lowerStr c.oracle_text) (str "draw a card") || containsStr (lowerStr c.oracle_text) (str "scry") || containsStr (lowerStr c.oracle_text) (str "investigate")) with
          | true =>
            rw [find?_rule_pos h4, if_pos rfl]
            rfl
          | false =>
            rw [find?_rule_neg h4, if_neg (show ¬(false = true) by decide)]
            cases h5 : (containsStr (lowerStr c.oracle_text) (str "destroy target") || containsStr (lowerStr c.oracle_text) (str "exile target") || containsStr (lowerStr c.oracle_text) (str "counter target") || containsStr (lowerStr c.oracle_text) (str "fight target")) with
            | true =>
              rw [find?_rule_pos h5, if_pos rfl]
              rfl
            | false =>
              rw [find?_rule_neg h5, if_neg (show ¬(false = true) by decide)]
              cases h6 : (containsStr (lowerStr c.oracle_text) (str "you win the game") || containsStr (lowerStr c.oracle_text) (str "extra turn") || containsStr (lowerStr c.oracle_text) (str "infinite")) with
              | true =>
                rw [find?_rule_pos h6, if_pos rfl]
                rfl
              | false =>
                rw [find?_rule_neg h6, if_neg (show ¬(false = true) by decide)]
                cases h7 : containsStr (lowerStr c.type_line) (str "artifact") with
                | true =>
                  rw [find?_rule_pos h7, if_pos rfl]
                  rfl
                | false =>
                  rw [find?_rule_neg h7, if_neg (show ¬(false = true) by decide)]
                  cases h8 : containsStr (lowerStr c.type_line) (str "enchantment") with
                  | true =>
                    rw [find?_rule_pos h8, if_pos rfl]
                    rfl
                  | false =>
                    rw [find?_rule_neg h8, if_neg (show ¬(false = true) by decide)]
                    cases h9 : containsStr (lowerStr c.type_line) (str "instant") with
                    | true =>
                      rw [find?_rule_pos h9, if_pos rfl]
                      rfl
                    | false =>
                      rw [find?_rule_neg h9, if_neg (show ¬(false = true) by decide)]
                      cases h10 : containsStr (lowerStr c.type_line) (str "sorcery") with
                      | true =>
                        rw [find?_rule_pos h10, if_pos rfl]
                        rfl
                      | false =>
                        rw [find?_rule_neg h10, if_neg (show ¬(false = true) by decide)]
                        rfl
  · intro c hcre hland
    show (if containsStr (lowerStr c.type_line) (str "land") = true then _ else _) = _
    rw [if_neg (by rw [hland]; exact (by decide)), if_pos hcre]

/-- A land creature with draw language: type priority sends it to Land. -/
def dryadArbor : Card :=
  ⟨str "Dryad Arbor", str "Land Creature - Forest Dryad",
    str "When Dryad Arbor enters, draw a card.", some 0, ['G'], some 100, none, none⟩

/-- C9 counterexample: a card whose type line contains `"creature"` that is
NOT classified Creature — `"land"` matches first. -/
theorem classify_creature_counterexample :
    containsStr (lowerStr dryadArbor.type_line) (str "creature") = true ∧
    containsStr (lowerStr dryadArbor.oracle_text) (str "draw a card") = true ∧
    detect_function (some dryadArbor) = str "Land" ∧
    detect_function (some dryadArbor) ≠ str "Creature" := by
  refine ⟨?_, ?_, ?_, ?_⟩ <;> decide

/-- A creature with draw language in its ability text. -/
def archivist : Card :=
  ⟨str "Archivist", str "Creature - Human Wizard", str "Tap: draw a card.",
    some 4, ['U'], some 9000, none, none⟩

/-- Witness for `classify_priority_amended`: the creature-with-draw-text
tie break at a concrete card. -/
theorem classify_priority_witness :
    containsStr (lowerStr archivist.type_line) (str "creature") = true ∧
    containsStr (lowerStr archivist.type_line) (str "land") = false ∧
    detect_function (some archivist) = str "Creature" :=
  ⟨by decide, by decide, classify_priority_amended.2 archivist (by decide) (by decide)⟩

lemma suggestedLoop_mem {lookup : Str → Option Card} {identity : List Char} {mp : ℚ} :
    ∀ (l : List Str) (row : SuggRow), row ∈ suggestedLoop lookup identity mp l →
      ∃ nm ∈ l, ∃ info, lookup nm = some info ∧
        row = suggRow info (get_price_eur (some info)) ∧
        is_commander_legal info identity = true ∧
        (mp ≤ 0 ∨ get_price_eur (some info) ≤ mp)
  | [], row, h => by cases h
  | nm :: rest, row, h => by
    unfold suggestedLoop at h
    split at h
    · obtain ⟨nm2, hnm2, hrest⟩ := suggestedLoop_mem rest row h
      exact ⟨nm2, List.mem_cons_of_mem _ hnm2, hrest⟩
    · next info heq =>
      split at h
      · obtain ⟨nm2, hnm2, hrest⟩ := suggestedLoop_mem rest row h
        exact ⟨nm2, List.mem_cons_of_mem _ hnm2, hrest⟩
      · next hleg =>
        split at h
        · next hprice =>
          rcases List.mem_cons.mp h with h2 | h2
          · refine ⟨nm, List.mem_cons_self _ _, info, heq, h2, ?_, hprice⟩
            simp only [Bool.not_eq_true'] at hleg
            rw [Bool.not_eq_false] at hleg
            exact hleg
          · obtain ⟨nm2, hnm2, hrest⟩ := suggestedLoop_mem rest row h2
            exact ⟨nm2, List.mem_cons_of_mem _ hnm2, hrest⟩
        · obtain ⟨nm2, hnm2, hrest⟩ := suggestedLoop_mem rest row h
          exact ⟨nm2, List.mem_cons_of_mem _ hnm2, hrest⟩

lemma suggestedLoop_order {lookup : Str → Option Card} {identity : List Char} {mp : ℚ} :
    ∀ (l : List Str), List.Sublist ((suggestedLoop lookup identity mp l).map SuggRow.name)
      ((l.filterMap lookup).map Card.name)
  | [] => List.Sublist.refl _
  | nm :: rest => by
    unfold suggestedLoop
    rw [List.filterMap_cons]
    split
    · next heq => rw [heq]; exact suggestedLoop_order rest
    · next info heq =>
      rw [heq, List.map_cons]
      split
      · exact List.Sublist.cons _ (suggestedLoop_order rest)
      · split
        · exact List.Sublist.cons₂ _ (suggestedLoop_order rest)
        · exact List.Sublist.cons _ (suggestedLoop_order rest)

/-- C7: every suggestion row arises from a recommendation name whose
normalized key is absent from the collection index, resolved to a legal
card whose price respects a positive ceiling; at most 150 candidates are
resolved; the rows stay in resolution order (their names form a sublist
of the resolved candidates in order). -/
theorem suggested_list_props (lookup : Str → Option Card) (idx : List (Str × Card))
    (identity : List Char) (mp : ℚ) (names : List Str) (hmp : 0 ≤ mp) :
    (∀ row ∈ suggestedList lookup idx identity mp names,
      ∃ nm, nm ∈ names ∧ (idxGet idx (normName nm)).isNone = true ∧
        ∃ info, lookup nm = some info ∧ row.name = info.name ∧
          is_commander_legal info identity = true ∧ (0 < mp → row.price ≤ mp)) ∧
    ((missingNames idx names).take 150).length ≤ 150 ∧
    List.Sublist ((suggestedList lookup idx identity mp names).map SuggRow.name)
      ((((missingNames idx names).take 150).filterMap lookup).map Card.name) := by
  refine ⟨?_, ?_, ?_⟩
  · intro row hrow
    obtain ⟨nm, hnm, info, heq, hroweq, hleg, hprice⟩ :=
      suggestedLoop_mem _ row hrow
    have hnm2 : nm ∈ missingNames idx names :=
      (List.take_sublist _ _).subset hnm
    obtain ⟨hnames, hpred⟩ := List.mem_filter.mp hnm2
    refine ⟨nm, hnames, hpred, info, heq, by rw [hroweq]; rfl, hleg, ?_⟩
    intro hpos
    rcases hprice with hp | hp
    · exact absurd hp (not_le.mpr hpos)
    · rw [hroweq]; exact hp
  · exact List.length_take_le _ _
  · exact suggestedLoop_order _

/-- A resolvable, legal, affordable recommendation card. -/
def rhysticCard : Card :=
  ⟨str "Rhystic Study", str "Enchantment", str "Whenever an opponent casts a spell, draw a card.",
    some 3, ['U'], some 50, some (str "2.5"), none⟩

/-- Witness for `suggested_list_props`: one concrete suggestion row and its
originating recommendation name. -/
theorem suggested_list_witness :
    suggRow rhysticCard (5 / 2) ∈
        suggestedList (fun _ => some rhysticCard) [] ['G', 'U'] 5 [str "Rhystic Study"] ∧
    (∃ nm, nm ∈ [str "Rhystic Study"] ∧
      (idxGet [] (normName nm)).isNone = true ∧
      ∃ info, (fun _ : Str => some rhysticCard) nm = some info ∧
        (suggRow rhysticCard (5 / 2)).name = info.name ∧
        is_commander_legal info ['G', 'U'] = true ∧
        (0 < (5 : ℚ) → (suggRow rhysticCard (5 / 2)).price ≤ 5)) :=
  ⟨by with_unfolding_all decide,
    (suggested_list_props (fun _ => some rhysticCard) [] ['G', 'U'] 5 [str "Rhystic Study"]
      (by norm_num)).1 (suggRow rhysticCard (5 / 2)) (by with_unfolding_all decide)⟩

lemma dictInsert_mem {k : Str} {v : Card} : ∀ {m : List (Str × Card)} {p : Str × Card},
    p ∈ dictInsert k v m → p ∈ m ∨ p = (k, v)
  | [], p, h => Or.inr (List.mem_singleton.mp h)
  | (k2, v2) :: rest, p, h => by
    unfold dictInsert at h
    split at h
    · next heq =>
      rcases List.mem_cons.mp h with h2 | h2
      · exact Or.inr (by rw [h2, heq])
      · exact Or.inl (List.mem_cons_of_mem _ h2)
    · rcases List.mem_cons.mp h with h2 | h2
      · exact Or.inl (h2 ▸ List.mem_cons_self _ _)
      · rcases dictInsert_mem h2 with h3 | h3
        · exact Or.inl (List.mem_cons_of_mem _ h3)
        · exact Or.inr h3

lemma dictInsert_keys : ∀ (m : List (Str × Card)) (k : Str) (v : Card),
    (dictInsert k v m).map Prod.fst =
      if k ∈ m.map Prod.fst then m.map Prod.fst else m.map Prod.fst ++ [k]
  | [], k, v => by simp [dictInsert]
  | (k2, v2) :: rest, k, v => by
    unfold dictInsert
    split
    · next heq =>
      rw [if_pos]
      · simp [heq]
      · rw [List.map_cons]
        exact List.mem_cons.mpr (Or.inl heq.symm)
    · next hne =>
      rw [List.map_cons, List.map_cons, dictInsert_keys rest k v]
      by_cases hk : k ∈ rest.map Prod.fst
      · rw [if_pos hk, if_pos (List.mem_cons.mpr (Or.inr hk))]
      · rw [if_neg hk, if_neg ?_, List.cons_append]
        intro hmem
        rcases List.mem_cons.mp hmem with h2 | h2
        · exact hne h2.symm
        · exact hk h2

lemma dictInsert_keys_nodup {m : List (Str × Card)} (h : (m.map Prod.fst).Nodup)
    (k : Str) (v : Card) : ((dictInsert k v m).map Prod.fst).Nodup := by
  rw [dictInsert_keys]
  split
  · exact h
  · next hk =>
    rw [List.nodup_append]
    exact ⟨h, List.nodup_singleton k, fun a ha hmem => hk ((List.mem_singleton.mp hmem) ▸ ha)⟩

lemma buildIdx_go : ∀ (pool : List Card) (m : List (Str × Card)),
    (∀ p ∈ m, normName (Card.name p.2) = p.1) → (m.map Prod.fst).Nodup →
    (∀ p ∈ pool.foldl (fun m c => dictInsert (normName c.name) c m) m,
        normName (Card.name p.2) = p.1) ∧
      ((pool.foldl (fun m c => dictInsert (normName c.name) c m) m).map Prod.fst).Nodup
  | [], m, h1, h2 => ⟨h1, h2⟩
  | c :: rest, m, h1, h2 => by
    rw [List.foldl_cons]
    apply buildIdx_go rest
    · intro p hp
      rcases dictInsert_mem hp with h3 | h3
      · exact h1 p h3
      · rw [h3]
    · exact dictInsert_keys_nodup h2 _ _

lemma buildIdx_inv (pool : List Card) :
    (∀ p ∈ buildIdx pool, normName (Card.name p.2) = p.1) ∧
      ((buildIdx pool).map Prod.fst).Nodup :=
  buildIdx_go pool [] (fun p hp => absurd hp (List.not_mem_nil p)) List.nodup_nil

lemma assoc_nodup_val_eq : ∀ {m : List (Str × Card)} {k : Str} {v1 v2 : Card},
    (m.map Prod.fst).Nodup → (k, v1) ∈ m → (k, v2) ∈ m → v1 = v2
  | [], _, _, _, _, h1, _ => absurd h1 (List.not_mem_nil _)
  | (k0, v0) :: rest, k, v1, v2, hnd, h1, h2 => by
    rw [List.map_cons, List.nodup_cons] at hnd
    rcases List.mem_cons.mp h1 with ha | ha <;> rcases List.mem_cons.mp h2 with hb | hb
    · rw [Prod.mk.injEq] at ha hb
      rw [ha.2, hb.2]
    · exfalso
      apply hnd.1
      rw [Prod.mk.injEq] at ha
      rw [← ha.1]
      exact List.mem_map.mpr ⟨(k, v2), hb, rfl⟩
    · exfalso
      apply hnd.1
      rw [Prod.mk.injEq] at hb
      rw [← hb.1]
      exact List.mem_map.mpr ⟨(k, v1), ha, rfl⟩
    · exact assoc_nodup_val_eq hnd.2 ha hb

/-- Two distinct records stored in the collection index always carry
distinct normalized names. -/
lemma idx_vals_key_ne {pool : List Card} {c1 c2 : Card}
    (h1 : c1 ∈ (buildIdx pool).map Prod.snd) (h2 : c2 ∈ (buildIdx pool).map Prod.snd)
    (hne : c1 ≠ c2) : normName c1.name ≠ normName c2.name := by
  obtain ⟨p1, hp1, he1⟩ := List.mem_map.mp h1
  obtain ⟨p2, hp2, he2⟩ := List.mem_map.mp h2
  obtain ⟨hinv, hnd⟩ := buildIdx_inv pool
  intro hkey
  apply hne
  have e1 : normName c1.name = p1.1 := by rw [← he1]; exact hinv p1 hp1
  have e2 : normName c2.name = p2.1 := by rw [← he2]; exact hinv p2 hp2
  have hp1e : (normName c1.name, c1) ∈ buildIdx pool := by
    rw [e1, ← he1]
    exact hp1
  have hp2e : (normName c1.name, c2) ∈ buildIdx pool := by
    rw [hkey, e2, ← he2]
    exact hp2
  exact assoc_nodup_val_eq hnd hp1e hp2e

lemma idxGet_mem {m : List (Str × Card)} {k : Str} {c : Card} (h : idxGet m k = some c) :
    c ∈ m.map Prod.snd := by
  unfold idxGet at h
  cases hf : m.find? (fun p => p.1 == k) with
  | none => rw [hf] at h; cases h
  | some p =>
    rw [hf] at h
    cases h
    exact List.mem_map.mpr ⟨p, List.mem_of_find?_eq_some hf, rfl⟩

lemma stapleHits_go : ∀ (ss : List Str) (idx : List (Str × Card)) (identity : List Char)
    (acc : List Card), acc.Nodup →
    (∀ c ∈ acc, c ∈ idx.map Prod.snd ∧ is_commander_legal c identity = true) →
    (ss.foldl (stapleStep idx identity) acc).Nodup ∧
    (∀ c ∈ ss.foldl (stapleStep idx identity) acc,
      c ∈ idx.map Prod.snd ∧ is_commander_legal c identity = true)
  | [], _, _, acc, hnd, hmem => ⟨hnd, hmem⟩
  | s :: rest, idx, identity, acc, hnd, hmem => by
    rw [List.foldl_cons]
    cases hg : idxGet idx (normName s) with
    | none =>
      have hstep : stapleStep idx identity acc s = acc := by
        unfold stapleStep
        rw [hg]
      rw [hstep]
      exact stapleHits_go rest idx identity acc hnd hmem
    | some c =>
      by_cases hcond : is_commander_legal c identity = true ∧ c ∉ acc
      · have hstep : stapleStep idx identity acc s = acc ++ [c] := by
          unfold stapleStep
          rw [hg]
          exact if_pos hcond
        rw [hstep]
        apply stapleHits_go rest idx identity
        · rw [List.nodup_append]
          exact ⟨hnd, List.nodup_singleton c,
            fun a ha hmem2 => hcond.2 ((List.mem_singleton.mp hmem2) ▸ ha)⟩
        · intro d hd
          rcases List.mem_append.mp hd with h2 | h2
          · exact hmem d h2
          · rw [List.mem_singleton.mp h2]
            exact ⟨idxGet_mem hg, hcond.1⟩
      · have hstep : stapleStep idx identity acc s = acc := by
          unfold stapleStep
          rw [hg]
          exact if_neg hcond
        rw [hstep]
        exact stapleHits_go rest idx identity acc hnd hmem

lemma stapleHits_inv (idx : List (Str × Card)) (identity : List Char) :
    (stapleHits idx identity).Nodup ∧
      ∀ c ∈ stapleHits idx identity,
        c ∈ idx.map Prod.snd ∧ is_commander_legal c identity = true :=
  stapleHits_go STAPLES idx identity [] List.nodup_nil
    (fun c hc => absurd hc (List.not_mem_nil c))

lemma ownedEdhrec_go : ∀ (names : List Str) (idx : List (Str × Card)) (identity : List Char)
    (acc : List Card),
    (∀ c ∈ acc, c ∈ idx.map Prod.snd ∧ is_commander_legal c identity = true) →
    (∀ c ∈ names.foldl (ownedStep idx identity) acc,
      c ∈ idx.map Prod.snd ∧ is_commander_legal c identity = true)
  | [], _, _, acc, hmem => hmem
  | en :: rest, idx, identity, acc, hmem => by
    rw [List.foldl_cons]
    cases hg : idxGet idx (normName en) with
    | none =>
      have hstep : ownedStep idx identity acc en = acc := by
        unfold ownedStep
        rw [hg]
      rw [hstep]
      exact ownedEdhrec_go rest idx identity acc hmem
    | some c =>
      by_cases hleg : is_commander_legal c identity = true
      · have hstep : ownedStep idx identity acc en = acc ++ [c] := by
          unfold ownedStep
          rw [hg]
          exact if_pos hleg
        rw [hstep]
        apply ownedEdhrec_go rest idx identity
        intro d hd
        rcases List.mem_append.mp hd with h2 | h2
        · exact hmem d h2
        · rw [List.mem_singleton.mp h2]
          exact ⟨idxGet_mem hg, hleg⟩
      · have hstep : ownedStep idx identity acc en = acc := by
          unfold ownedStep
          rw [hg]
          exact if_neg hleg
        rw [hstep]
        exact ownedEdhrec_go rest idx identity acc hmem

lemma ownedEdhrec_inv (idx : List (Str × Card)) (identity : List Char) (names : List Str) :
    ∀ c ∈ ownedEdhrec idx identity names,
      c ∈ idx.map Prod.snd ∧ is_commander_legal c identity = true :=
  ownedEdhrec_go names idx identity [] (fun c hc => absurd hc (List.not_mem_nil c))

lemma insSorted_perm (x : Card) : ∀ (l : List Card), (insSorted x l).Perm (x :: l)
  | [] => List.Perm.refl _
  | y :: ys => by
    unfold insSorted
    split
    · exact List.Perm.refl _
    · exact ((insSorted_perm x ys).cons y).trans (List.Perm.swap x y ys)

lemma sortByRankCmc_perm : ∀ (l : List Card), (sortByRankCmc l).Perm l
  | [] => List.Perm.refl _
  | x :: xs => by
    unfold sortByRankCmc
    rw [List.foldr_cons]
    exact (insSorted_perm x _).trans ((sortByRankCmc_perm xs).cons x)

lemma rotateBias_perm (t : ℚ) (l : List Card) : (rotateBias t l).Perm l := by
  unfold rotateBias
  split
  · exact List.Perm.refl _
  · have h1 : (l.drop (shiftOf t l.length) ++ l.take (shiftOf t l.length)).Perm
        (l.take (shiftOf t l.length) ++ l.drop (shiftOf t l.length)) := List.perm_append_comm
    rw [List.take_append_drop] at h1
    exact h1

lemma fillerCands_mem {idx : List (Str × Card)} {owned : List Card} {identity : List Char} :
    ∀ c ∈ fillerCands idx owned identity,
      c ∈ idx.map Prod.snd ∧ is_commander_legal c identity = true := by
  intro c hc
  obtain ⟨hmem, hp⟩ := List.mem_filter.mp hc
  rw [Bool.and_eq_true] at hp
  exact ⟨hmem, hp.2⟩

/-- The invariant maintained by the deck-building passes: the commander
sits in front, the remaining entries are pairwise distinct records from
the collection index, all legal. -/
def DeckInv (commander : Card) (vals : List Card) (identity : List Char)
    (deck : List Card) : Prop :=
  deck.head? = some commander ∧ (deck.drop 1).Nodup ∧
    ∀ c ∈ deck.drop 1, c ∈ vals ∧ is_commander_legal c identity = true

lemma appendIfNew_inv {commander : Card} {vals : List Card} {identity : List Char}
    {deck : List Card} {c : Card} (h : DeckInv commander vals identity deck)
    (hc : c ∈ vals ∧ is_commander_legal c identity = true) :
    DeckInv commander vals identity (appendIfNew deck c) := by
  unfold appendIfNew
  split
  · exact h
  · next hnot =>
    obtain ⟨hh, hnd, hmem⟩ := h
    obtain ⟨d, rest, rfl⟩ : ∃ d rest, deck = d :: rest := by
      cases deck with
      | nil => cases hh
      | cons d rest => exact ⟨d, rest, rfl⟩
    rw [List.cons_append]
    refine ⟨hh, ?_, ?_⟩
    · show (rest ++ [c]).Nodup
      rw [List.nodup_append]
      exact ⟨hnd, List.nodup_singleton c,
        fun a ha hmem2 => hnot ((List.mem_singleton.mp hmem2) ▸
          List.mem_cons_of_mem d ha)⟩
    · intro x hx
      rcases List.mem_append.mp hx with h2 | h2
      · exact hmem x h2
      · rw [List.mem_singleton.mp h2]
        exact hc

lemma foldl_appendIfNew_inv {commander : Card} {vals : List Card} {identity : List Char} :
    ∀ (l deck : List Card), DeckInv commander vals identity deck →
      (∀ c ∈ l, c ∈ vals ∧ is_commander_legal c identity = true) →
      DeckInv commander vals identity (l.foldl appendIfNew deck)
  | [], deck, h, _ => h
  | c :: rest, deck, h, hl => by
    rw [List.foldl_cons]
    exact foldl_appendIfNew_inv rest _ (appendIfNew_inv h (hl c (List.mem_cons_self c rest)))
      (fun d hd => hl d (List.mem_cons_of_mem c hd))

lemma addFillers_inv {commander : Card} {vals : List Card} {identity : List Char} :
    ∀ (fillers deck : List Card), DeckInv commander vals identity deck →
      (∀ c ∈ fillers, c ∈ vals ∧ is_commander_legal c identity = true) →
      DeckInv commander vals identity (addFillers deck fillers)
  | [], deck, h, _ => h
  | c :: rest, deck, h, hl => by
    unfold addFillers
    split
    · exact h
    · exact addFillers_inv rest _ (appendIfNew_inv h (hl c (List.mem_cons_self c rest)))
        (fun d hd => hl d (List.mem_cons_of_mem c hd))

lemma singleton_append_drop_one (a : Card) (l : List Card) : ([a] ++ l).drop 1 = l := by
  simp

lemma preFillerDeck_inv (commander : Card) (pool : List Card) (names : List Str) :
    DeckInv commander ((buildIdx pool).map Prod.snd) commander.color_identity
      (preFillerDeck commander pool names) := by
  have hstap := stapleHits_inv (buildIdx pool) commander.color_identity
  have h0 : DeckInv commander ((buildIdx pool).map Prod.snd) commander.color_identity
      ([commander] ++ stapleHits (buildIdx pool) commander.color_identity) := by
    refine ⟨rfl, ?_, ?_⟩
    · rw [singleton_append_drop_one]
      exact hstap.1
    · rw [singleton_append_drop_one]
      exact hstap.2
  exact foldl_appendIfNew_inv _ _ h0 (ownedEdhrec_inv _ _ _)

lemma assembleDeck_full_inv (commander : Card) (pool : List Card) (names : List Str) (t : ℚ) :
    DeckInv commander ((buildIdx pool).map Prod.snd) commander.color_identity
      (addFillers (preFillerDeck commander pool names)
        (rotateBias t (sortByRankCmc (fillerCands (buildIdx pool)
          (ownedEdhrec (buildIdx pool) commander.color_identity names)
          commander.color_identity)))) := by
  apply addFillers_inv
  · exact preFillerDeck_inv commander pool names
  · intro c hc
    have hperm := (rotateBias_perm t (sortByRankCmc (fillerCands (buildIdx pool)
        (ownedEdhrec (buildIdx pool) commander.color_identity names)
        commander.color_identity))).trans (sortByRankCmc_perm (fillerCands (buildIdx pool)
        (ownedEdhrec (buildIdx pool) commander.color_identity names)
        commander.color_identity))
    exact fillerCands_mem _ (hperm.mem_iff.mp hc)

lemma deckInv_take {commander : Card} {vals : List Card} {identity : List Char}
    {deck : List Card} (h : DeckInv commander vals identity deck) :
    (deck.take 100).length ≤ 100 ∧ (deck.take 100).head? = some commander ∧
      ((deck.take 100).drop 1).Nodup ∧
      (∀ c ∈ (deck.take 100).drop 1, c ∈ vals) ∧
      (∀ c ∈ deck.take 100, c = commander ∨ is_commander_legal c identity = true) := by
  obtain ⟨hh, hnd, hmem⟩ := h
  obtain ⟨d, rest, rfl⟩ : ∃ d rest, deck = d :: rest := by
    cases deck with
    | nil => cases hh
    | cons d rest => exact ⟨d, rest, rfl⟩
  have hd : d = commander := by
    have : some d = some commander := hh
    injection this
  refine ⟨List.length_take_le _ _, ?_, ?_, ?_, ?_⟩
  · show (d :: rest.take 99).head? = some commander
    rw [hd]
    rfl
  · show (rest.take 99).Nodup
    exact (List.take_sublist _ _).nodup hnd
  · show ∀ c ∈ rest.take 99, c ∈ vals
    intro c hc
    exact (hmem c ((List.take_sublist _ _).subset hc)).1
  · show ∀ c ∈ d :: rest.take 99, _
    intro c hc
    rcases List.mem_cons.mp hc with h2 | h2
    · exact Or.inl (h2.trans hd)
    · exact Or.inr (hmem c ((List.take_sublist _ _).subset h2)).2

/-- C1 (amended): the assembled deck has at most 100 entries, the
commander is its first element, and the entries after the first have
pairwise distinct normalized name keys.  (The commander itself may share
its key with one later entry: the staples pass never checks against the
commander, see `deck_duplicate_commander_counterexample`.) -/
theorem deck_bounds_amended (commander : Card) (pool : List Card) (names : List Str) (t : ℚ) :
    (assembleDeck commander pool names t).length ≤ 100 ∧
    (assembleDeck commander pool names t).head? = some commander ∧
    ((assembleDeck commander pool names t).drop 1).Pairwise
      (fun a b => normName a.name ≠ normName b.name) := by
  obtain ⟨hlen, hh, hnd, hvals, _⟩ := deckInv_take (assembleDeck_full_inv commander pool names t)
  refine ⟨hlen, hh, ?_⟩
  refine List.Pairwise.imp_of_mem ?_ hnd
  intro a b ha hb hne
  exact idx_vals_key_ne (hvals a ha) (hvals b hb) hne

/-- C2: a card that is not the commander and whose color identity is not a
subset of the commander identity never appears in the assembled deck. -/
theorem deck_color_identity_filter (commander : Card) (pool : List Card) (names : List Str)
    (t : ℚ) (c : Card) (hleg : is_commander_legal c commander.color_identity = false)
    (hne : c ≠ commander) : c ∉ assembleDeck commander pool names t := by
  obtain ⟨_, _, _, _, hall⟩ := deckInv_take (assembleDeck_full_inv commander pool names t)
  intro hc
  rcases hall c hc with h2 | h2
  · exact hne h2
  · rw [hleg] at h2
    cases h2

/-- A commander record that is itself an owned staple. -/
def solRingRec : Card :=
  ⟨str "Sol Ring", str "Artifact", str "Add two colorless mana.", some 1, [], some 1, none, none⟩

/-- C1 counterexample: when the commander is an owned staple, the staples
pass (which never checks against the commander) appends the very same
record again, so the deck holds two entries with the same record and the
same normalized name key. -/
theorem deck_duplicate_commander_counterexample :
    assembleDeck solRingRec [solRingRec] [] 3 = [solRingRec, solRingRec] ∧
    ¬ (assembleDeck solRingRec [solRingRec] [] 3).Pairwise
      (fun a b => normName a.name ≠ normName b.name) := by
  constructor
  · with_unfolding_all decide
  · with_unfolding_all decide

/-- A Simic commander and a Sultai collection card. -/
def guCommander : Card :=
  ⟨str "Kinnan, Bonder Prodigy", str "Legendary Creature", [], some 2, ['G', 'U'],
    some 5, none, none⟩

def gubCard : Card :=
  ⟨str "Muldrotha, the Gravetide", str "Legendary Creature", [], some 6, ['G', 'U', 'B'],
    some 10, none, none⟩

/-- Witness for `deck_color_identity_filter`: a `{G,U,B}` card never enters
the deck of a `{G,U}` commander. -/
theorem deck_color_identity_witness :
    is_commander_legal gubCard guCommander.color_identity = false ∧
    gubCard ≠ guCommander ∧
    gubCard ∉ assembleDeck guCommander [gubCard] [] 3 :=
  ⟨by with_unfolding_all decide, by with_unfolding_all decide,
    deck_color_identity_filter guCommander [gubCard] [] 3 gubCard
      (by with_unfolding_all decide) (by with_unfolding_all decide)⟩

/-- C10: the curve-bias step applied to any candidate list is a rotation —
some prefix is moved to the end — so its output is a permutation of the
input holding exactly the same cards. -/
theorem curve_rotation_perm (l : List Card) (t : ℚ) (h1 : 1 ≤ t) (h2 : t ≤ 7) :
    (∃ s, rotateBias t l = l.drop s ++ l.take s) ∧ (rotateBias t l).Perm l := by
  constructor
  · unfold rotateBias
    split
    · next he =>
      rw [List.isEmpty_eq_true] at he
      refine ⟨0, ?_⟩
      rw [he]
      rfl
    · exact ⟨shiftOf t l.length, rfl⟩
  · exact rotateBias_perm t l

/-- Witness for `curve_rotation_perm` at a one-card list and target 4. -/
theorem curve_rotation_perm_witness :
    (1 : ℚ) ≤ 4 ∧ (4 : ℚ) ≤ 7 ∧
    ((∃ s, rotateBias 4 [solRingRec] = [solRingRec].drop s ++ [solRingRec].take s) ∧
      (rotateBias 4 [solRingRec]).Perm [solRingRec]) :=
  ⟨by norm_num, by norm_num, curve_rotation_perm [solRingRec] 4 (by norm_num) (by norm_num)⟩

lemma rat_floor_eq_int_floor (q : ℚ) : q.floor = ⌊q⌋ :=
  (Rat.floor_def' q).trans Rat.floor_def.symm

lemma ratMin_eq_min (a b : ℚ) : ratMin a b = min a b := by
  rw [ratMin, min_def]

lemma ratMax_eq_max (a b : ℚ) : ratMax a b = max a b := by
  unfold ratMax
  rcases le_or_lt b a with h | h
  · rw [if_pos h, max_eq_left h]
  · rw [if_neg (not_le.mpr h), max_eq_right (le_of_lt h)]

/-- C6 (amended): raising the curve target weakly increases the rotation
shift applied to the sorted filler list (the bias and hence the shift are
weakly monotone in the target); the average mana value of the selected
subset need not increase, see `curve_average_counterexample`. -/
theorem curve_shift_monotone_amended (t1 t2 : ℚ) (n : Nat) (h1 : 1 ≤ t1) (h12 : t1 ≤ t2)
    (h2 : t2 ≤ 7) : shiftOf t1 n ≤ shiftOf t2 n := by
  have hb : biasOf t1 ≤ biasOf t2 := by
    unfold biasOf
    rw [ratMax_eq_max, ratMax_eq_max, ratMin_eq_min, ratMin_eq_min]
    apply max_le_max le_rfl
    apply min_le_min ?_ le_rfl
    linarith
  have hm : (n : ℚ) * biasOf t1 * (9 / 20) ≤ (n : ℚ) * biasOf t2 * (9 / 20) := by
    have hn : (0 : ℚ) ≤ (n : ℚ) := Nat.cast_nonneg n
    have := mul_le_mul_of_nonneg_left hb hn
    nlinarith
  unfold shiftOf
  rw [rat_floor_eq_int_floor, rat_floor_eq_int_floor]
  exact Int.toNat_le_toNat (Int.floor_mono hm)

/-- Witness for `curve_shift_monotone_amended` at targets 2 and 5 over a
10-card filler list. -/
theorem curve_shift_monotone_witness :
    (1 : ℚ) ≤ 2 ∧ (2 : ℚ) ≤ 5 ∧ (5 : ℚ) ≤ 7 ∧ shiftOf 2 10 ≤ shiftOf 5 10 :=
  ⟨by norm_num, by norm_num, by norm_num,
    curve_shift_monotone_amended 2 5 10 (by norm_num) (by norm_num) (by norm_num)⟩

/-- Digit character for building distinct short names. -/
def digitChar (d : Nat) : Char := Char.ofNat (48 + d)

/-- 100 distinct filler cards: popularity ranks 1..100; the 45 most
popular ones have mana value 10, the remaining 55 have mana value 1. -/
def mkFillCard (i : Nat) : Card :=
  ⟨['c', digitChar (i / 10), digitChar (i % 10)], [], [], some (if i < 45 then 10 else 1),
    [], some (i + 1), none, none⟩

def bigPool : List Card := (List.range 100).map mkFillCard

def plainCommander : Card := ⟨str "the boss", [], [], some 5, [], none, none, none⟩

set_option maxRecDepth 80000 in
/-- C6 counterexample: with this collection the filler pass fills 99 deck
slots out of 100 candidates.  Raising the curve target from 1 to 7 rotates
the rank-sorted list by 45, which pushes 44 high-cost cards to the end of
the window and pulls 55 cheap cards forward: the average mana value of the
filler-selected subset drops from 504/99 to 495/99. -/
theorem curve_average_counterexample :
    (1 : ℚ) < 7 ∧
    avgManaValue (fillerSelected plainCommander bigPool [] 7) <
      avgManaValue (fillerSelected plainCommander bigPool [] 1) := by
  constructor
  · norm_num
  · with_unfolding_all decide
